import Mathlib

/-!
Verification development for the row-to-text encoding and streaming-write
engine of the dumpling export tool (package `export`):
`v4/export/sql_type.go` and `v4/export/writer_util.go`.

Byte strings are modelled as `List Nat` (one entry per byte, in order).
Go string constants are injected via `strBytes`.  All definitions are
executable; theorems at the end settle the specification claims.
-/

/-- Bytes of an ASCII string constant, one `Nat` per character. -/
def strBytes (s : String) : List Nat := s.data.map Char.toNat

/-- Concatenation of a list of byte strings (used for buffer/chunk maths). -/
def catL {α : Type} : List (List α) → List α
  | [] => []
  | x :: xs => x ++ catL xs

/-- Go slice expression `s[a:b]` on byte strings. -/
def listSlice (s : List Nat) (a b : Nat) : List Nat := (s.drop a).take (b - a)

/-! ## Escaper (`sql_type.go`)

`backslashEscape.Escape` (lines 52-100) scans the input once, copying runs of
unescaped bytes between escape points; the `switch` marks seven bytes for
escaping.  `escByteB c` is that `switch`: `some e` means byte `c` is escaped
and `e` is the byte written after the backslash. -/

def escByteB (c : Nat) : Option Nat :=
  if c = 0 then some 48        -- NUL, escaped as \0 ('0' = 48)
  else if c = 10 then some 110 -- '\n', escaped as \n ('n' = 110)
  else if c = 13 then some 114 -- '\r', escaped as \r ('r' = 114)
  else if c = 92 then some 92  -- '\\', escaped as \\
  else if c = 39 then some 39  -- '\'', escaped as \'
  else if c = 34 then some 34  -- '"', escaped as \"
  else if c = 26 then some 90  -- SUB (0x1A), escaped as \Z ('Z' = 90)
  else none

/-- Loop body of `backslashEscape.Escape`: `rem` is `s[i:]`, `last` is the
start of the pending unescaped run, `acc` the bytes written so far.  On an
escape point the run `s[last:i]` is flushed followed by `\` and the escape
byte; after the loop the tail is flushed exactly as in the Go code (the
`bf.Grow` call affects capacity only and has no output effect). -/
def bsLoopAux (s : List Nat) : List Nat → Nat → Nat → List Nat → List Nat
  | [], _, last, acc =>
    if last = 0 then acc ++ s
    else if last < s.length then acc ++ s.drop last
    else acc
  | c :: rest, i, last, acc =>
    match escByteB c with
    | some e => bsLoopAux s rest (i + 1) (i + 1) (acc ++ listSlice s last i ++ [92, e])
    | none => bsLoopAux s rest (i + 1) last acc

/-- The function `backslashEscape.Escape` of `sql_type.go` (output bytes it
appends to the buffer for input `s`). -/
def backslashEscapeGo (s : List Nat) : List Nat := bsLoopAux s s 0 0 []

/-- Per-byte denotation of the backslash-dialect escaper. -/
def bsCharList : List Nat → List Nat
  | [] => []
  | c :: rest =>
    (match escByteB c with
     | some e => [92, e]
     | none => [c]) ++ bsCharList rest

/-- The `switch` of `noBackslashEscape.Escape` (lines 104-139): only `\` and
`'` are marked; the escape byte equals the byte itself (the source comment
reads: `'` -> `''` and `\` -> `\\`). -/
def escByteN (c : Nat) : Option Nat :=
  if c = 92 then some 92
  else if c = 39 then some 39
  else none

/-- Loop body of `noBackslashEscape.Escape`: on an escape point the source
writes `s[last:i+1]` (the run *including* the marked byte) followed by the
escape byte, i.e. it doubles the byte.  Tail handling as in the Go code. -/
def nbLoopAux (s : List Nat) : List Nat → Nat → Nat → List Nat → List Nat
  | [], _, last, acc =>
    if last = 0 then acc ++ s
    else if last < s.length then acc ++ s.drop last
    else acc
  | c :: rest, i, last, acc =>
    match escByteN c with
    | some e => nbLoopAux s rest (i + 1) (i + 1) (acc ++ listSlice s last (i + 1) ++ [e])
    | none => nbLoopAux s rest (i + 1) last acc

/-- The function `noBackslashEscape.Escape` of `sql_type.go`. -/
def noBackslashEscapeGo (s : List Nat) : List Nat := nbLoopAux s s 0 0 []

/-- Per-byte denotation of the no-backslash-dialect escaper. -/
def nbCharList : List Nat → List Nat
  | [] => []
  | c :: rest =>
    (match escByteN c with
     | some e => [c, e]
     | none => [c]) ++ nbCharList rest

/-! ## Dialect unescape rules (string-literal parsing)

The parsing rules of the two dialects are not part of this repository; they
are modelled from the spec (section 4.1) to state the round-trip claims. -/

/-- Modelled from the spec: the MySQL backslash-dialect decoding of a single
escape pair `\c` (inverse of the seven-byte table; an unrecognized escaped
byte stands for itself). -/
def unBSChar (c : Nat) : Nat :=
  if c = 48 then 0
  else if c = 110 then 10
  else if c = 114 then 13
  else if c = 92 then 92
  else if c = 39 then 39
  else if c = 34 then 34
  else if c = 90 then 26
  else c

/-- Modelled from the spec: backslash-dialect string-literal body parsing —
each `\c` pair decodes via `unBSChar`, every other byte is literal. -/
def unescapeBS : List Nat → List Nat
  | [] => []
  | [c] => [c]
  | c1 :: c2 :: rest =>
    if c1 = 92 then unBSChar c2 :: unescapeBS rest
    else c1 :: unescapeBS (c2 :: rest)

/-- Modelled from the spec: ANSI / no-backslash-escapes string-literal body
parsing — `''` decodes to `'`, every other byte (backslash included) is
literal. -/
def unescapeNB : List Nat → List Nat
  | [] => []
  | [c] => [c]
  | c1 :: c2 :: rest =>
    if c1 = 39 ∧ c2 = 39 then 39 :: unescapeNB rest
    else c1 :: unescapeNB (c2 :: rest)

/-! ## Column codecs (`sql_type.go`) -/

/-- The three row-receiver variants: `SQLTypeString` and `SQLTypeNumber` hold
a `sql.NullString` (present bytes or NULL), `SQLTypeBytes` holds raw bytes. -/
inductive SQLCol where
  | strV (v : Option (List Nat))
  | numV (v : Option (List Nat))
  | binV (v : List Nat)
deriving DecidableEq

/-- Lowercase hex digit byte for a nibble (modelling Go `fmt` `%x`). -/
def hexDigit (n : Nat) : Nat := if n < 10 then 48 + n else 87 + n

/-- Hex body of `fmt.Sprintf("x'%x'", bytes)`: two lowercase hex digits per
byte, in byte order. -/
def hexBody : List Nat → List Nat
  | [] => []
  | v :: rest => hexDigit (v / 16) :: hexDigit (v % 16) :: hexBody rest

/-- The `ReportSize` methods of the three variants (`sql_type.go`):
string/number report the byte length of the value (or `len("NULL")` when
absent), bytes report the raw byte length. -/
def reportSize : SQLCol → Nat
  | .strV (some s) => s.length
  | .strV none => 4
  | .numV (some s) => s.length
  | .numV none => 4
  | .binV b => b.length

/-- Rendering of one column value into the accumulator.  `SQLTypeString`
writes a quote, the escaped bytes (dialect chosen by `esc`), and a closing
quote, or `NULL` when absent; `SQLTypeNumber` writes the raw bytes or
`NULL`; `SQLTypeBytes` writes `x'`, lowercase hex pairs, `'`. -/
def renderCol (esc : Bool) : SQLCol → List Nat
  | .strV (some s) => [39] ++ (if esc then backslashEscapeGo s else noBackslashEscapeGo s) ++ [39]
  | .strV none => strBytes "NULL"
  | .numV (some s) => s
  | .numV none => strBytes "NULL"
  | .binV b => [120, 39] ++ hexBody b ++ [39]

/-- Separator-joined concatenation (comma placement of the row renderer). -/
def joinSep (sep : List Nat) : List (List Nat) → List Nat
  | [] => []
  | [x] => x
  | x :: y :: rest => x ++ sep ++ joinSep sep (y :: rest)

/-- Modelled from the spec: `RowReceiverArr.WriteToBuffer` (the per-row
renderer called by `WriteInsert`) is not under `src/`; per spec section 4.3
it renders `(`, each column's literal separated by `,`, then `)`. -/
def renderRow (esc : Bool) (r : List SQLCol) : List Nat :=
  [40] ++ joinSep [44] (r.map (renderCol esc)) ++ [41]

/-! ## Identifier quoting (`writer_util.go` lines 285-294) -/

/-- The function `wrapStringWith` of `writer_util.go`. -/
def wrapStringWith (s w : List Nat) : List Nat := w ++ s ++ w

/-- The function `wrapBackTicks` of `writer_util.go`: wraps in backticks when
the identifier neither starts with a backtick (`strings.HasPrefix`) nor ends
with one (`strings.HasSuffix`); otherwise it is returned unchanged. -/
def wrapBackTicks (id : List Nat) : List Nat :=
  if ¬ (id.head? = some 96) ∧ ¬ (id.getLast? = some 96) then wrapStringWith id [96]
  else id

/-! ## Statement assembler: `WriteInsert` (`writer_util.go` lines 91-182)

The producer side of `WriteInsert` is deterministic: it appends text to the
accumulator `bf` and, when `bf.Len() >= lengthLimit` right after a row body,
enqueues the buffer content as a chunk and resets the buffer.  The models
below compute the sequence of enqueued chunks; the chunk threshold is kept
as a parameter `limit` (the source fixes it to `lengthLimit`). -/

/-- The constant `lengthLimit` of `writer_util.go`. -/
def lengthLimit : Nat := 1048576

/-- One table dump's inputs, as consumed by `WriteInsert` through the
`TableDataIR` interface: special-comment lines, table name, optional
explicit column list (empty bytes = absent), the row stream segmented into
row groups, and the dialect flag. -/
structure TableIR where
  specialComments : List (List Nat)
  tableName : List Nat
  selectedField : List Nat
  groups : List (List (List SQLCol))
  escapeBackSlash : Bool
deriving DecidableEq

/-- The INSERT statement head built at lines 131-139: with a non-empty
`selectedField` the column list is interposed, otherwise not. -/
def insertHead (tbl : TableIR) : List Nat :=
  if tbl.selectedField ≠ [] then
    strBytes "INSERT INTO " ++ wrapBackTicks tbl.tableName ++ [32] ++ tbl.selectedField
      ++ strBytes " VALUES" ++ [10]
  else
    strBytes "INSERT INTO " ++ wrapBackTicks tbl.tableName ++ strBytes " VALUES" ++ [10]

/-- Special-comment bytes written ahead of any data (lines 117-121): each
comment followed by one newline byte. -/
def commentsBytes (cs : List (List Nat)) : List Nat := catL (cs.map (fun c => c ++ [10]))

/-- `fileRowIter.HasNext()` at line 93: the stream has at least one row. -/
def hasRow (tbl : TableIR) : Bool := tbl.groups.any (fun g => ¬ g.isEmpty)

/-- Inner row loop (lines 145-169) at byte level.  Per row: append the row
body; if the buffer length reached `limit`, enqueue the buffer as a chunk
and reset it; then append `,\n` when more rows follow in the group, else
`;\n`. -/
def rowsLoop (limit : Nat) (esc : Bool) :
    List (List SQLCol) → List Nat → List (List Nat) → List Nat × List (List Nat)
  | [], bf, ch => (bf, ch)
  | r :: rest, bf, ch =>
    let bf1 := bf ++ renderRow esc r
    let p := if limit ≤ bf1.length then (([] : List Nat), ch ++ [bf1]) else (bf1, ch)
    rowsLoop limit esc rest (p.1 ++ (if rest.isEmpty then [59, 10] else [44, 10])) p.2

/-- Outer row-group loop (lines 141-170): per group append the statement
head, then run the row loop. -/
def groupsLoop (limit : Nat) (esc : Bool) (hd : List Nat) :
    List (List (List SQLCol)) → List Nat → List (List Nat) → List Nat × List (List Nat)
  | [], bf, ch => (bf, ch)
  | g :: gs, bf, ch =>
    let p := rowsLoop limit esc g (bf ++ hd) ch
    groupsLoop limit esc hd gs p.1 p.2

/-- The chunk sequence `WriteInsert` enqueues on the writer pipe, in order:
nothing when the stream is empty (line 93); otherwise comments and groups
are accumulated and the leftover buffer is enqueued at the end when
non-empty (lines 174-178). -/
def writeInsertChunksL (limit : Nat) (tbl : TableIR) : List (List Nat) :=
  if hasRow tbl then
    let p := groupsLoop limit tbl.escapeBackSlash (insertHead tbl) tbl.groups
      (commentsBytes tbl.specialComments) []
    if 0 < p.1.length then p.2 ++ [p.1] else p.2
  else []

/-- The chunk sequence with the source's fixed threshold. -/
def writeInsertChunks (tbl : TableIR) : List (List Nat) := writeInsertChunksL lengthLimit tbl

/-- Single-shot rendering of a row group per the spec's framing words:
consecutive rows separated by `,\n`, the last row terminated by `;\n`. -/
def rowsTextSpec (esc : Bool) : List (List SQLCol) → List Nat
  | [] => []
  | [r] => renderRow esc r ++ [59, 10]
  | r :: r2 :: rest => renderRow esc r ++ [44, 10] ++ rowsTextSpec esc (r2 :: rest)

/-- Single-shot (unbatched) rendering of the whole stream per the spec's
framing words: each special comment followed by a newline, then per group
the INSERT head followed by the joined rows. -/
def singleShotText (tbl : TableIR) : List Nat :=
  commentsBytes tbl.specialComments
    ++ catL (tbl.groups.map (fun g => insertHead tbl ++ rowsTextSpec tbl.escapeBackSlash g))

/-! ## Piece-level view of the producer (for the no-row-split claim)

The same producer loops, tracking the buffer as a list of atomic pieces
(comment lines, statement heads, whole row bodies, separators) instead of
flat bytes.  Flush decisions use the byte length of the piece buffer, so
the piece loops project exactly onto the byte loops. -/

/-- Inner row loop tracking pieces: the row body enters the buffer as one
piece, so a flush can never cut it. -/
def rowsLoopP (limit : Nat) (esc : Bool) :
    List (List SQLCol) → List (List Nat) → List (List (List Nat)) →
      List (List Nat) × List (List (List Nat))
  | [], bfp, chp => (bfp, chp)
  | r :: rest, bfp, chp =>
    let bfp1 := bfp ++ [renderRow esc r]
    let p := if limit ≤ (catL bfp1).length then (([] : List (List Nat)), chp ++ [bfp1])
      else (bfp1, chp)
    rowsLoopP limit esc rest (p.1 ++ [if rest.isEmpty then [59, 10] else [44, 10]]) p.2

/-- Outer group loop tracking pieces. -/
def groupsLoopP (limit : Nat) (esc : Bool) (hd : List Nat) :
    List (List (List SQLCol)) → List (List Nat) → List (List (List Nat)) →
      List (List Nat) × List (List (List Nat))
  | [], bfp, chp => (bfp, chp)
  | g :: gs, bfp, chp =>
    let p := rowsLoopP limit esc g (bfp ++ [hd]) chp
    groupsLoopP limit esc hd gs p.1 p.2

/-- Special comments as pieces, one per comment line. -/
def commentPieces (cs : List (List Nat)) : List (List Nat) := cs.map (fun c => c ++ [10])

/-- Chunks as lists of whole pieces. -/
def writeInsertPiecesL (limit : Nat) (tbl : TableIR) : List (List (List Nat)) :=
  if hasRow tbl then
    let p := groupsLoopP limit tbl.escapeBackSlash (insertHead tbl) tbl.groups
      (commentPieces tbl.specialComments) []
    if 0 < (catL p.1).length then p.2 ++ [p.1] else p.2
  else []

/-- Emission order of the pieces of one row group: row body, then separator,
row by row. -/
def rowPiecesEmit (esc : Bool) : List (List SQLCol) → List (List Nat)
  | [] => []
  | r :: rest =>
    [renderRow esc r] ++ [if rest.isEmpty then [59, 10] else [44, 10]]
      ++ rowPiecesEmit esc rest

/-- The canonical piece stream of one table dump: comment pieces, then per
group the head piece followed by its row and separator pieces; nothing when
the stream is empty. -/
def piecesOf (tbl : TableIR) : List (List Nat) :=
  if hasRow tbl then
    commentPieces tbl.specialComments
      ++ catL (tbl.groups.map (fun g =>
        [insertHead tbl] ++ rowPiecesEmit tbl.escapeBackSlash g))
  else []

/-! ## Writer pipe (`writer_util.go` lines 24-71)

`writerPipe.Run` consumes queued chunks in order; after the first failed
sink write it sends the error into the one-slot `errCh` channel and skips
all later chunks (the `errOccurs` flag).  `writerPipe.Error` is a
non-blocking `select`: it receives from `errCh` when a value is buffered
(removing it from the channel) and returns nil otherwise.  `outcome k` is
the sink's result for its `k`-th `WriteString` call (`none` = success). -/

structure WpState where
  errCh : Option Nat
  errOccurs : Bool
  attempted : List (List Nat)
deriving DecidableEq

/-- One iteration of the `Run` loop for a dequeued chunk `s`. -/
def runStep (outcome : Nat → Option Nat) (st : WpState) (s : List Nat) : WpState :=
  if st.errOccurs then st
  else
    match outcome st.attempted.length with
    | none => ⟨st.errCh, st.errOccurs, st.attempted ++ [s]⟩
    | some e => ⟨some e, true, st.attempted ++ [s]⟩

/-- The `Run` loop from a given state over the queued chunks. -/
def runPipeFrom (outcome : Nat → Option Nat) (st : WpState) : List (List Nat) → WpState
  | [] => st
  | c :: cs => runPipeFrom outcome (runStep outcome st c) cs

/-- The `Run` loop over a chunk sequence, from the initial pipe state. -/
def runPipe (outcome : Nat → Option Nat) (chunks : List (List Nat)) : WpState :=
  runPipeFrom outcome ⟨none, false, []⟩ chunks

/-- The `Error` method: non-blocking consuming read of `errCh`; returns the
buffered error (emptying the channel) or nil. -/
def wpError (st : WpState) : Option Nat × WpState := (st.errCh, ⟨none, st.errOccurs, st.attempted⟩)

/-- An always-failing sink outcome (first write fails with error 7). -/
def failingOutcome : Nat → Option Nat := fun _ => some 7

/-- A sink whose second write fails with error 9 (spec scenario 6). -/
def sinkFailSecond : Nat → Option Nat := fun i => if i = 1 then some 9 else none

/-- The return value of `WriteInsert` on the producer-then-consumer schedule
(the producer enqueues everything, the consumer then drains, the final
`wp.Error()` at line 181 reads the error channel): nil immediately when the
stream is empty (lines 92-95). -/
def writeInsertRet (limit : Nat) (outcome : Nat → Option Nat) (tbl : TableIR) : Option Nat :=
  if hasRow tbl then (runPipe outcome (writeInsertChunksL limit tbl)).errCh
  else none

/-! ## Buffer hand-off aliasing (`writer_util.go` lines 154-157)

`wp.input <- bf.Bytes()` enqueues a slice header pointing into the buffer's
backing array; `bf.Reset()` keeps that array and later `WriteString` calls
overwrite it in place (writes always land in place while within capacity,
and `bf.Grow(lengthLimit)` pre-reserves that capacity).  The model tracks
the array contents, the buffer length, queued chunk lengths (the slice
headers), a ghost copy of each chunk's bytes at enqueue time, and the bytes
the background writer actually hands to the sink. -/

structure BufState where
  arr : List Nat
  len : Nat
  queue : List Nat
  queuedAt : List (List Nat)
  sink : List (List Nat)
deriving DecidableEq

/-- In-place write of `s` at position `pos` of the backing array. -/
def writeAt (arr : List Nat) (pos : Nat) (s : List Nat) : List Nat :=
  arr.take pos ++ s ++ arr.drop (pos + s.length)

/-- Interleaving events: a producer `WriteString` into the buffer, the
producer's flush (enqueue `bf.Bytes()`, then `bf.Reset()`), and one
background-writer dequeue-and-write. -/
inductive PAct where
  | wr (s : List Nat)
  | flushA
  | consumeA
deriving DecidableEq

/-- Effect of one event on the shared state. -/
def stepA (st : BufState) : PAct → BufState
  | .wr s => { st with arr := writeAt st.arr st.len s, len := st.len + s.length }
  | .flushA =>
    { st with
      queue := st.queue ++ [st.len]
      queuedAt := st.queuedAt ++ [st.arr.take st.len]
      len := 0 }
  | .consumeA =>
    match st.queue with
    | [] => st
    | n :: rest => { st with queue := rest, sink := st.sink ++ [st.arr.take n] }

/-- Run of an interleaving from the initial state. -/
def runActs (acts : List PAct) : BufState :=
  acts.foldl stepA ⟨[], 0, [], [], []⟩

/-- The interleaving of spec scenario 5 where the producer starts the second
row before the background writer dequeues the first chunk. -/
def aliasTrace : List PAct := [.wr [1, 1, 1, 1], .flushA, .wr [2, 2], .consumeA]

/-- Example stream of spec scenario 1: one group, one row `('a', 5)`,
table name `t`, backslash dialect. -/
def exTbl : TableIR :=
  { specialComments := []
    tableName := [116]
    selectedField := []
    groups := [[[SQLCol.strV (some [97]), SQLCol.numV (some [53])]]]
    escapeBackSlash := true }

/-- Example stream with no rows (one special comment, empty group list). -/
def emptyTbl : TableIR :=
  { specialComments := [[35]]
    tableName := [116]
    selectedField := []
    groups := []
    escapeBackSlash := true }

/-! ## Helper lemmas: list plumbing -/

theorem catL_append {α : Type} (a b : List (List α)) : catL (a ++ b) = catL a ++ catL b := by
  induction a with
  | nil => rfl
  | cons x xs ih => simp [catL, ih]

theorem catL_snoc {α : Type} (l : List (List α)) (x : List α) :
    catL (l ++ [x]) = catL l ++ x := by
  simp [catL_append, catL]

theorem takeAllOfLe {α : Type} : ∀ (l : List α) (n : Nat), l.length ≤ n → l.take n = l := by
  intro l
  induction l with
  | nil => intro n _; simp
  | cons x xs ih =>
    intro n h
    cases n with
    | zero => simp at h
    | succ m => simp only [List.take_succ_cons]; rw [ih m (by simpa using h)]

theorem dropAllOfLe {α : Type} : ∀ (l : List α) (n : Nat), l.length ≤ n → l.drop n = [] := by
  intro l
  induction l with
  | nil => intro n _; simp
  | cons x xs ih =>
    intro n h
    cases n with
    | zero => simp at h
    | succ m => simpa using ih m (by simpa using h)

theorem dropDrop {α : Type} : ∀ (a : Nat) (l : List α) (b : Nat),
    (l.drop a).drop b = l.drop (a + b) := by
  intro a
  induction a with
  | zero => intro l b; simp
  | succ m ih =>
    intro l b
    cases l with
    | nil => simp
    | cons x xs =>
      have := ih xs b
      simp only [Nat.succ_add, List.drop_succ_cons]
      exact this

theorem dropConsSucc {α : Type} (l : List α) (i : Nat) (c : α) (rest : List α)
    (h : l.drop i = c :: rest) : l.drop (i + 1) = rest := by
  have := dropDrop i l 1
  rw [← this, h]
  rfl

theorem takeSnocOfDrop {α : Type} : ∀ (l : List α) (k : Nat) (c : α) (rest : List α),
    l.drop k = c :: rest → l.take (k + 1) = l.take k ++ [c] := by
  intro l
  induction l with
  | nil => intro k c rest h; simp at h
  | cons x xs ih =>
    intro k c rest h
    cases k with
    | zero =>
      simp only [List.drop_zero] at h
      cases h
      simp
    | succ m =>
      simp only [List.drop_succ_cons] at h
      simp [ih m c rest h]

theorem sliceAll (s : List Nat) (a b : Nat) (hb : s.length ≤ b) :
    listSlice s a b = s.drop a := by
  unfold listSlice
  exact takeAllOfLe _ _ (by simp; omega)

theorem sliceRefl (s : List Nat) (a : Nat) : listSlice s a a = [] := by
  simp [listSlice]

theorem sliceSnoc (s : List Nat) (a i : Nat) (c : Nat) (rest : List Nat)
    (ha : a ≤ i) (h : s.drop i = c :: rest) :
    listSlice s a (i + 1) = listSlice s a i ++ [c] := by
  unfold listSlice
  have h2 : (s.drop a).drop (i - a) = c :: rest := by
    rw [dropDrop]
    rwa [Nat.add_sub_cancel' ha]
  have h3 : i + 1 - a = (i - a) + 1 := by omega
  rw [h3, takeSnocOfDrop (s.drop a) (i - a) c rest h2]

/-! ## Helper lemmas: escaper loops equal their per-byte denotations -/

theorem bsLoopAux_eq (s : List Nat) : ∀ (rem : List Nat) (i last : Nat) (acc : List Nat),
    rem = s.drop i → last ≤ i →
    bsLoopAux s rem i last acc = acc ++ listSlice s last i ++ bsCharList (s.drop i) := by
  intro rem
  induction rem with
  | nil =>
    intro i last acc hrem hle
    have hlen : s.length ≤ i := by
      by_contra hc
      have : s.drop i ≠ [] := by
        apply List.ne_nil_of_length_pos
        simp
        omega
      exact this hrem.symm
    rw [← hrem]
    unfold bsLoopAux
    rw [sliceAll s last i (by omega), bsCharList]
    by_cases h0 : last = 0
    · simp [h0]
    · by_cases hlt : last < s.length
      · simp [h0, hlt]
      · have : s.drop last = [] := dropAllOfLe s last (by omega)
        simp [h0, hlt, this]
  | cons c rest ih =>
    intro i last acc hrem hle
    have hcons : s.drop i = c :: rest := hrem.symm
    have hdrop1 : s.drop (i + 1) = rest := dropConsSucc s i c rest hcons
    cases hE : escByteB c with
    | some e =>
      have hstep : bsLoopAux s (c :: rest) i last acc
          = bsLoopAux s rest (i + 1) (i + 1) (acc ++ listSlice s last i ++ [92, e]) := by
        simp [bsLoopAux, hE]
      rw [hstep, ih (i + 1) (i + 1) _ hdrop1.symm (Nat.le_refl _), sliceRefl, hdrop1, hcons]
      simp [bsCharList, hE]
    | none =>
      have hstep : bsLoopAux s (c :: rest) i last acc = bsLoopAux s rest (i + 1) last acc := by
        simp [bsLoopAux, hE]
      rw [hstep, ih (i + 1) last acc hdrop1.symm (by omega),
        sliceSnoc s last i c rest hle hcons, hdrop1, hcons]
      simp [bsCharList, hE]

theorem backslashEscapeGo_eq (s : List Nat) : backslashEscapeGo s = bsCharList s := by
  have := bsLoopAux_eq s s 0 0 [] (by simp) (Nat.le_refl 0)
  simpa [backslashEscapeGo, sliceRefl] using this

theorem nbLoopAux_eq (s : List Nat) : ∀ (rem : List Nat) (i last : Nat) (acc : List Nat),
    rem = s.drop i → last ≤ i →
    nbLoopAux s rem i last acc = acc ++ listSlice s last i ++ nbCharList (s.drop i) := by
  intro rem
  induction rem with
  | nil =>
    intro i last acc hrem hle
    have hlen : s.length ≤ i := by
      by_contra hc
      have : s.drop i ≠ [] := by
        apply List.ne_nil_of_length_pos
        simp
        omega
      exact this hrem.symm
    rw [← hrem]
    unfold nbLoopAux
    rw [sliceAll s last i (by omega), nbCharList]
    by_cases h0 : last = 0
    · simp [h0]
    · by_cases hlt : last < s.length
      · simp [h0, hlt]
      · have : s.drop last = [] := dropAllOfLe s last (by omega)
        simp [h0, hlt, this]
  | cons c rest ih =>
    intro i last acc hrem hle
    have hcons : s.drop i = c :: rest := hrem.symm
    have hdrop1 : s.drop (i + 1) = rest := dropConsSucc s i c rest hcons
    cases hE : escByteN c with
    | some e =>
      have hstep : nbLoopAux s (c :: rest) i last acc
          = nbLoopAux s rest (i + 1) (i + 1) (acc ++ listSlice s last (i + 1) ++ [e]) := by
        simp [nbLoopAux, hE]
      rw [hstep, ih (i + 1) (i + 1) _ hdrop1.symm (Nat.le_refl _), sliceRefl, hdrop1,
        sliceSnoc s last i c rest hle hcons, hcons]
      simp [nbCharList, hE]
    | none =>
      have hstep : nbLoopAux s (c :: rest) i last acc = nbLoopAux s rest (i + 1) last acc := by
        simp [nbLoopAux, hE]
      rw [hstep, ih (i + 1) last acc hdrop1.symm (by omega),
        sliceSnoc s last i c rest hle hcons, hdrop1, hcons]
      simp [nbCharList, hE]

theorem noBackslashEscapeGo_eq (s : List Nat) : noBackslashEscapeGo s = nbCharList s := by
  have := nbLoopAux_eq s s 0 0 [] (by simp) (Nat.le_refl 0)
  simpa [noBackslashEscapeGo, sliceRefl] using this

/-! ## Helper lemmas: round trips of the two dialects -/

theorem escByteB_none_ne (c : Nat) (h : escByteB c = none) : c ≠ 92 := by
  intro hc
  subst hc
  simp [escByteB] at h

theorem unBSChar_inv (c e : Nat) (h : escByteB c = some e) : unBSChar e = c := by
  unfold escByteB at h
  split_ifs at h <;> injection h with h <;> subst_vars <;> decide

theorem unescapeBS_cons (c : Nat) (l : List Nat) (h : c ≠ 92) :
    unescapeBS (c :: l) = c :: unescapeBS l := by
  cases l with
  | nil => rfl
  | cons x xs => simp [unescapeBS, h]

theorem unescapeBS_pair (c2 : Nat) (l : List Nat) :
    unescapeBS (92 :: c2 :: l) = unBSChar c2 :: unescapeBS l := by
  simp [unescapeBS]

theorem roundtripBS (s : List Nat) : unescapeBS (bsCharList s) = s := by
  induction s with
  | nil => rfl
  | cons c rest ih =>
    cases hE : escByteB c with
    | some e =>
      have : bsCharList (c :: rest) = 92 :: e :: bsCharList rest := by
        simp [bsCharList, hE]
      rw [this, unescapeBS_pair, unBSChar_inv c e hE, ih]
    | none =>
      have : bsCharList (c :: rest) = c :: bsCharList rest := by
        simp [bsCharList, hE]
      rw [this, unescapeBS_cons c _ (escByteB_none_ne c hE), ih]

theorem unescapeNB_cons (c : Nat) (l : List Nat) (h : c ≠ 39) :
    unescapeNB (c :: l) = c :: unescapeNB l := by
  cases l with
  | nil => rfl
  | cons x xs => simp [unescapeNB, h]

theorem roundtripNB (s : List Nat) (h : 92 ∉ s) : unescapeNB (nbCharList s) = s := by
  induction s with
  | nil => rfl
  | cons c rest ih =>
    have hc : c ≠ 92 := by
      intro hcc
      exact h (hcc ▸ List.mem_cons_self c rest)
    have hrest : 92 ∉ rest := fun hm => h (List.mem_cons_of_mem c hm)
    cases hE : escByteN c with
    | some e =>
      have hc39 : c = 39 := by
        unfold escByteN at hE
        split_ifs at hE <;> simp_all
      have he39 : e = 39 := by
        unfold escByteN at hE
        split_ifs at hE <;> simp_all
      subst hc39
      subst he39
      have h1 : nbCharList (39 :: rest) = 39 :: 39 :: nbCharList rest := by
        simp [nbCharList, hE]
      have h2 : unescapeNB (39 :: 39 :: nbCharList rest) = 39 :: unescapeNB (nbCharList rest) := by
        simp [unescapeNB]
      rw [h1, h2, ih hrest]
    | none =>
      have hc39 : c ≠ 39 := by
        intro hcc
        subst hcc
        simp [escByteN] at hE
      have : nbCharList (c :: rest) = c :: nbCharList rest := by
        simp [nbCharList, hE]
      rw [this, unescapeNB_cons c _ hc39, ih hrest]

/-! ## Helper lemmas: the producer loops of `WriteInsert` -/

theorem rowsLoop_flatten (limit : Nat) (esc : Bool) :
    ∀ (rows : List (List SQLCol)) (bf : List Nat) (ch : List (List Nat)),
      catL (rowsLoop limit esc rows bf ch).2 ++ (rowsLoop limit esc rows bf ch).1
        = catL ch ++ bf ++ rowsTextSpec esc rows := by
  intro rows
  induction rows with
  | nil => intro bf ch; simp [rowsLoop, rowsTextSpec]
  | cons r rest ih =>
    intro bf ch
    by_cases hlim : limit ≤ (bf ++ renderRow esc r).length
    · have hlim2 : limit ≤ bf.length + (renderRow esc r).length := by simpa using hlim
      have hstep : rowsLoop limit esc (r :: rest) bf ch
          = rowsLoop limit esc rest ([] ++ (if rest.isEmpty then [59, 10] else [44, 10]))
            (ch ++ [bf ++ renderRow esc r]) := by
        simp [rowsLoop, hlim2]
      rw [hstep, ih]
      cases rest with
      | nil => simp [rowsTextSpec, catL_snoc, List.append_assoc]
      | cons r2 rest2 => simp [rowsTextSpec, catL_snoc, List.append_assoc]
    · have hlim2 : ¬ limit ≤ bf.length + (renderRow esc r).length := by simpa using hlim
      have hstep : rowsLoop limit esc (r :: rest) bf ch
          = rowsLoop limit esc rest
            ((bf ++ renderRow esc r) ++ (if rest.isEmpty then [59, 10] else [44, 10])) ch := by
        simp [rowsLoop, hlim2]
      rw [hstep, ih]
      cases rest with
      | nil => simp [rowsTextSpec, List.append_assoc]
      | cons r2 rest2 => simp [rowsTextSpec, List.append_assoc]

theorem groupsLoop_flatten (limit : Nat) (esc : Bool) (hd : List Nat) :
    ∀ (gs : List (List (List SQLCol))) (bf : List Nat) (ch : List (List Nat)),
      catL (groupsLoop limit esc hd gs bf ch).2 ++ (groupsLoop limit esc hd gs bf ch).1
        = catL ch ++ bf ++ catL (gs.map (fun g => hd ++ rowsTextSpec esc g)) := by
  intro gs
  induction gs with
  | nil => intro bf ch; simp [groupsLoop, catL]
  | cons g rest ih =>
    intro bf ch
    show catL (groupsLoop limit esc hd rest _ _).2 ++ (groupsLoop limit esc hd rest _ _).1 = _
    rw [ih, rowsLoop_flatten]
    simp [catL]

/-! ## Helper lemmas: piece-level loops project onto the byte-level loops -/

theorem rowsLoopP_proj (limit : Nat) (esc : Bool) :
    ∀ (rows : List (List SQLCol)) (bfp : List (List Nat)) (chp : List (List (List Nat))),
      rowsLoop limit esc rows (catL bfp) (chp.map catL)
        = (catL (rowsLoopP limit esc rows bfp chp).1,
           (rowsLoopP limit esc rows bfp chp).2.map catL) := by
  intro rows
  induction rows with
  | nil => intro bfp chp; simp [rowsLoop, rowsLoopP]
  | cons r rest ih =>
    intro bfp chp
    have hcs : catL (bfp ++ [renderRow esc r]) = catL bfp ++ renderRow esc r := catL_snoc _ _
    by_cases hlim : limit ≤ (catL (bfp ++ [renderRow esc r])).length
    · have hlim2 : limit ≤ (catL bfp).length + (renderRow esc r).length := by
        rw [hcs] at hlim
        simpa using hlim
      have hstepB : rowsLoop limit esc (r :: rest) (catL bfp) (chp.map catL)
          = rowsLoop limit esc rest ([] ++ (if rest.isEmpty then [59, 10] else [44, 10]))
            (chp.map catL ++ [catL bfp ++ renderRow esc r]) := by
        simp [rowsLoop, hlim2]
      have hstepP : rowsLoopP limit esc (r :: rest) bfp chp
          = rowsLoopP limit esc rest ([] ++ [if rest.isEmpty then [59, 10] else [44, 10]])
            (chp ++ [bfp ++ [renderRow esc r]]) := by
        simp [rowsLoopP, hlim]
      rw [hstepB, hstepP, ← ih]
      simp [catL, hcs]
    · have hlim2 : ¬ limit ≤ (catL bfp).length + (renderRow esc r).length := by
        rw [hcs] at hlim
        simpa using hlim
      have hstepB : rowsLoop limit esc (r :: rest) (catL bfp) (chp.map catL)
          = rowsLoop limit esc rest
            ((catL bfp ++ renderRow esc r) ++ (if rest.isEmpty then [59, 10] else [44, 10]))
            (chp.map catL) := by
        simp [rowsLoop, hlim2]
      have hstepP : rowsLoopP limit esc (r :: rest) bfp chp
          = rowsLoopP limit esc rest
            ((bfp ++ [renderRow esc r]) ++ [if rest.isEmpty then [59, 10] else [44, 10]]) chp := by
        simp [rowsLoopP, hlim]
      rw [hstepB, hstepP, ← ih]
      simp [catL_append, catL, hcs]

theorem groupsLoopP_proj (limit : Nat) (esc : Bool) (hd : List Nat) :
    ∀ (gs : List (List (List SQLCol))) (bfp : List (List Nat)) (chp : List (List (List Nat))),
      groupsLoop limit esc hd gs (catL bfp) (chp.map catL)
        = (catL (groupsLoopP limit esc hd gs bfp chp).1,
           (groupsLoopP limit esc hd gs bfp chp).2.map catL) := by
  intro gs
  induction gs with
  | nil => intro bfp chp; simp [groupsLoop, groupsLoopP]
  | cons g rest ih =>
    intro bfp chp
    have hb : catL bfp ++ hd = catL (bfp ++ [hd]) := (catL_snoc _ _).symm
    simp only [groupsLoop, groupsLoopP]
    rw [hb, rowsLoopP_proj]
    exact ih (rowsLoopP limit esc g (bfp ++ [hd]) chp).1 (rowsLoopP limit esc g (bfp ++ [hd]) chp).2

/-! ## Helper lemmas: piece-level emission order and nonemptiness -/

theorem rowsLoopP_flatten (limit : Nat) (esc : Bool) :
    ∀ (rows : List (List SQLCol)) (bfp : List (List Nat)) (chp : List (List (List Nat))),
      catL (rowsLoopP limit esc rows bfp chp).2 ++ (rowsLoopP limit esc rows bfp chp).1
        = catL chp ++ bfp ++ rowPiecesEmit esc rows := by
  intro rows
  induction rows with
  | nil => intro bfp chp; simp [rowsLoopP, rowPiecesEmit]
  | cons r rest ih =>
    intro bfp chp
    by_cases hlim : limit ≤ (catL (bfp ++ [renderRow esc r])).length
    · have hstep : rowsLoopP limit esc (r :: rest) bfp chp
          = rowsLoopP limit esc rest ([] ++ [if rest.isEmpty then [59, 10] else [44, 10]])
            (chp ++ [bfp ++ [renderRow esc r]]) := by
        simp [rowsLoopP, hlim]
      rw [hstep, ih]
      simp [rowPiecesEmit, catL_snoc, List.append_assoc]
    · have hstep : rowsLoopP limit esc (r :: rest) bfp chp
          = rowsLoopP limit esc rest
            ((bfp ++ [renderRow esc r]) ++ [if rest.isEmpty then [59, 10] else [44, 10]]) chp := by
        simp [rowsLoopP, hlim]
      rw [hstep, ih]
      simp [rowPiecesEmit, List.append_assoc]

theorem groupsLoopP_flatten (limit : Nat) (esc : Bool) (hd : List Nat) :
    ∀ (gs : List (List (List SQLCol))) (bfp : List (List Nat)) (chp : List (List (List Nat))),
      catL (groupsLoopP limit esc hd gs bfp chp).2 ++ (groupsLoopP limit esc hd gs bfp chp).1
        = catL chp ++ bfp ++ catL (gs.map (fun g => [hd] ++ rowPiecesEmit esc g)) := by
  intro gs
  induction gs with
  | nil => intro bfp chp; simp [groupsLoopP, catL]
  | cons g rest ih =>
    intro bfp chp
    simp only [groupsLoopP]
    rw [ih, rowsLoopP_flatten]
    simp [catL, List.append_assoc]

theorem appendNeNilLeft {α : Type} (a b : List α) (h : a ≠ []) : a ++ b ≠ [] := by
  cases a with
  | nil => exact absurd rfl h
  | cons x xs => simp

theorem appendSnocNe {α : Type} (a : List α) (y : α) : a ++ [y] ≠ [] := by
  cases a <;> simp

theorem renderRow_ne (esc : Bool) (r : List SQLCol) : renderRow esc r ≠ [] := by
  simp [renderRow]

theorem insertHead_ne (tbl : TableIR) : insertHead tbl ≠ [] := by
  unfold insertHead
  split
  · exact appendNeNilLeft _ _ (appendNeNilLeft _ _ (appendNeNilLeft _ _ (appendNeNilLeft _ _
      (appendNeNilLeft _ _ (by decide)))))
  · exact appendNeNilLeft _ _ (appendNeNilLeft _ _ (appendNeNilLeft _ _ (by decide)))

theorem sepPiece_ne (b : Bool) : (if b then ([59, 10] : List Nat) else [44, 10]) ≠ [] := by
  cases b <;> simp

theorem rowsLoopP_ne (limit : Nat) (esc : Bool) :
    ∀ (rows : List (List SQLCol)) (bfp : List (List Nat)) (chp : List (List (List Nat))),
      (∀ x ∈ bfp, x ≠ ([] : List Nat)) →
      ∀ x ∈ (rowsLoopP limit esc rows bfp chp).1, x ≠ ([] : List Nat) := by
  intro rows
  induction rows with
  | nil => intro bfp chp h; simpa [rowsLoopP] using h
  | cons r rest ih =>
    intro bfp chp h
    by_cases hlim : limit ≤ (catL (bfp ++ [renderRow esc r])).length
    · have hstep : rowsLoopP limit esc (r :: rest) bfp chp
          = rowsLoopP limit esc rest ([] ++ [if rest.isEmpty then [59, 10] else [44, 10]])
            (chp ++ [bfp ++ [renderRow esc r]]) := by
        simp [rowsLoopP, hlim]
      rw [hstep]
      apply ih
      intro x hx
      simp at hx
      subst hx
      split <;> simp
    · have hstep : rowsLoopP limit esc (r :: rest) bfp chp
          = rowsLoopP limit esc rest
            ((bfp ++ [renderRow esc r]) ++ [if rest.isEmpty then [59, 10] else [44, 10]]) chp := by
        simp [rowsLoopP, hlim]
      rw [hstep]
      apply ih
      intro x hx
      simp at hx
      rcases hx with hx | hx | hx
      · exact h x hx
      · subst hx; exact renderRow_ne esc r
      · subst hx; split <;> simp

theorem groupsLoopP_ne (limit : Nat) (esc : Bool) (hd : List Nat) (hhd : hd ≠ []) :
    ∀ (gs : List (List (List SQLCol))) (bfp : List (List Nat)) (chp : List (List (List Nat))),
      (∀ x ∈ bfp, x ≠ ([] : List Nat)) →
      ∀ x ∈ (groupsLoopP limit esc hd gs bfp chp).1, x ≠ ([] : List Nat) := by
  intro gs
  induction gs with
  | nil => intro bfp chp h; simpa [groupsLoopP] using h
  | cons g rest ih =>
    intro bfp chp h
    simp only [groupsLoopP]
    apply ih
    apply rowsLoopP_ne
    intro x hx
    simp at hx
    rcases hx with hx | hx
    · exact h x hx
    · rw [hx]; exact hhd

theorem catLNilOf {α : Type} (l : List (List α)) (h : ∀ x ∈ l, x ≠ []) (hc : catL l = []) :
    l = [] := by
  cases l with
  | nil => rfl
  | cons x xs =>
    exfalso
    cases x with
    | nil => exact h [] (List.mem_cons_self _ _) rfl
    | cons y ys => simp [catL] at hc

/-! ## Helper lemmas: the background writer loop -/

theorem runPipeFrom_stuck (outcome : Nat → Option Nat) :
    ∀ (chunks : List (List Nat)) (st : WpState), st.errOccurs = true →
      runPipeFrom outcome st chunks = st := by
  intro chunks
  induction chunks with
  | nil => intro st _; rfl
  | cons c cs ih =>
    intro st h
    have hstep : runStep outcome st c = st := by simp [runStep, h]
    simp only [runPipeFrom, hstep]
    exact ih st h

theorem runPipeFrom_ok (outcome : Nat → Option Nat) :
    ∀ (chunks : List (List Nat)) (st : WpState), st.errOccurs = false →
      (∀ i, i < chunks.length → outcome (st.attempted.length + i) = none) →
      runPipeFrom outcome st chunks = ⟨st.errCh, false, st.attempted ++ chunks⟩ := by
  intro chunks
  induction chunks with
  | nil =>
    intro st h _
    cases st
    simp_all [runPipeFrom]
  | cons c cs ih =>
    intro st h hout
    have h0 : outcome (st.attempted.length + 0) = none := hout 0 (by simp)
    rw [Nat.add_zero] at h0
    have hstep : runStep outcome st c = ⟨st.errCh, st.errOccurs, st.attempted ++ [c]⟩ := by
      simp [runStep, h, h0]
    simp only [runPipeFrom, hstep]
    have := ih ⟨st.errCh, st.errOccurs, st.attempted ++ [c]⟩ h (by
      intro i hi
      have := hout (i + 1) (by simpa using Nat.succ_lt_succ hi)
      simpa [Nat.add_assoc, Nat.add_comm 1 i] using this)
    rw [this, h]
    simp

theorem runPipeFrom_fail (outcome : Nat → Option Nat) :
    ∀ (chunks : List (List Nat)) (st : WpState) (k e : Nat), st.errOccurs = false →
      k < chunks.length →
      (∀ i, i < k → outcome (st.attempted.length + i) = none) →
      outcome (st.attempted.length + k) = some e →
      runPipeFrom outcome st chunks = ⟨some e, true, st.attempted ++ chunks.take (k + 1)⟩ := by
  intro chunks
  induction chunks with
  | nil => intro st k e _ hk; simp at hk
  | cons c cs ih =>
    intro st k e h hk hnone hsome
    cases k with
    | zero =>
      rw [Nat.add_zero] at hsome
      have hstep : runStep outcome st c = ⟨some e, true, st.attempted ++ [c]⟩ := by
        simp [runStep, h, hsome]
      simp only [runPipeFrom, hstep]
      rw [runPipeFrom_stuck outcome cs _ rfl]
      simp
    | succ m =>
      have h0 : outcome (st.attempted.length + 0) = none := hnone 0 (Nat.succ_pos m)
      rw [Nat.add_zero] at h0
      have hstep : runStep outcome st c = ⟨st.errCh, st.errOccurs, st.attempted ++ [c]⟩ := by
        simp [runStep, h, h0]
      simp only [runPipeFrom, hstep]
      have := ih ⟨st.errCh, st.errOccurs, st.attempted ++ [c]⟩ m e h (by simpa using hk)
        (by
          intro i hi
          have := hnone (i + 1) (Nat.succ_lt_succ hi)
          simpa [Nat.add_assoc, Nat.add_comm 1 i] using this)
        (by
          have heq : (st.attempted ++ [c]).length + m = st.attempted.length + (m + 1) := by
            simp [List.length_append]
            omega
          rw [heq]
          exact hsome)
      rw [this]
      simp

/-! ## Claims -/

/-- C1: for every row stream (non-empty, segmented into non-empty row
groups), the concatenation, in enqueue order, of all chunks `WriteInsert`
hands to the writer pipe equals the single-shot rendering of the same rows:
each special comment followed by a newline, then per row group the INSERT
head followed by the rows' literals, consecutive rows separated by `,\n`
and the last row of each group terminated by `;\n` — chunking is
observationally transparent, for every chunk threshold. -/
theorem claimC1ChunkingTransparent (limit : Nat) (tbl : TableIR)
    (hne : tbl.groups ≠ []) (hg : ∀ g ∈ tbl.groups, g ≠ []) :
    catL (writeInsertChunksL limit tbl) = singleShotText tbl := by
  have hrow : hasRow tbl = true := by
    cases hgs : tbl.groups with
    | nil => exact absurd hgs hne
    | cons g gs =>
      have hgne : g ≠ [] := hg g (hgs ▸ List.mem_cons_self g gs)
      simp [hasRow, hgs, hgne]
  have hunfold : writeInsertChunksL limit tbl =
      (if 0 < (groupsLoop limit tbl.escapeBackSlash (insertHead tbl) tbl.groups
          (commentsBytes tbl.specialComments) []).1.length
       then (groupsLoop limit tbl.escapeBackSlash (insertHead tbl) tbl.groups
          (commentsBytes tbl.specialComments) []).2
          ++ [(groupsLoop limit tbl.escapeBackSlash (insertHead tbl) tbl.groups
          (commentsBytes tbl.specialComments) []).1]
       else (groupsLoop limit tbl.escapeBackSlash (insertHead tbl) tbl.groups
          (commentsBytes tbl.specialComments) []).2) := by
    simp [writeInsertChunksL, hrow]
  have hinv := groupsLoop_flatten limit tbl.escapeBackSlash (insertHead tbl) tbl.groups
    (commentsBytes tbl.specialComments) []
  rw [hunfold]
  split
  · rw [catL_snoc, hinv]
    simp [singleShotText, catL]
  · next hneg =>
    have h0 : (groupsLoop limit tbl.escapeBackSlash (insertHead tbl) tbl.groups
        (commentsBytes tbl.specialComments) []).1 = [] := by
      have : (groupsLoop limit tbl.escapeBackSlash (insertHead tbl) tbl.groups
          (commentsBytes tbl.specialComments) []).1.length = 0 := by omega
      exact List.eq_nil_of_length_eq_zero this
    rw [h0, List.append_nil] at hinv
    rw [hinv]
    simp [singleShotText, catL]

/-- C1 witness: the scenario-1 stream (one group, one row `('a',5)`), with
chunk threshold 4 so that a mid-stream flush actually happens. -/
theorem claimC1Witness :
    exTbl.groups ≠ [] ∧ (∀ g ∈ exTbl.groups, g ≠ []) ∧
      catL (writeInsertChunksL 4 exTbl) = singleShotText exTbl :=
  ⟨by decide, by decide, claimC1ChunkingTransparent 4 exTbl (by decide) (by decide)⟩

/-- C2 counterexample: the claim fails at `s = [92]` (one backslash) in the
`escapeBackslash = false` dialect — the escaper doubles the backslash, and
the ANSI no-backslash-escapes parsing rule does not collapse `\\`, so the
round trip returns two backslashes. -/
theorem claimC2Counterexample :
    noBackslashEscapeGo [92] = [92, 92] ∧
      unescapeNB (noBackslashEscapeGo [92]) ≠ [92] := by decide

/-- C2 amended: the round trip holds for every byte string in the
`escapeBackslash = true` dialect; in the `escapeBackslash = false` dialect
it holds exactly for byte strings containing no backslash (the code also
doubles backslashes, which the dialect's parsing rule does not undo). -/
theorem claimC2Amended :
    (∀ s : List Nat, unescapeBS (backslashEscapeGo s) = s) ∧
    (∀ s : List Nat, 92 ∉ s → unescapeNB (noBackslashEscapeGo s) = s) := by
  constructor
  · intro s
    rw [backslashEscapeGo_eq]
    exact roundtripBS s
  · intro s h
    rw [noBackslashEscapeGo_eq]
    exact roundtripNB s h

/-- C2 witness: both round trips evaluated at `it's` (bytes 105 116 39 115),
which contains a quote but no backslash. -/
theorem claimC2Witness :
    unescapeBS (backslashEscapeGo [105, 116, 39, 115]) = [105, 116, 39, 115] ∧
    (92 ∉ ([105, 116, 39, 115] : List Nat)) ∧
    unescapeNB (noBackslashEscapeGo [105, 116, 39, 115]) = [105, 116, 39, 115] :=
  ⟨claimC2Amended.1 _, by decide, claimC2Amended.2 _ (by decide)⟩

/-- C3 counterexample: on input `it's\path` (bytes below) the
`escapeBackslash = false` escaper does not produce `it''s\path` — the
backslash does not pass through unchanged. -/
theorem claimC3Counterexample :
    noBackslashEscapeGo [105, 116, 39, 115, 92, 112, 97, 116, 104]
      ≠ [105, 116, 39, 39, 115, 92, 112, 97, 116, 104] := by decide

/-- C3 amended: in the `escapeBackslash = false` dialect the escaper doubles
both the single quote and the backslash; every other byte passes through
unchanged.  In particular `it's\path` becomes `it''s\\path`. -/
theorem claimC3Amended :
    (∀ s : List Nat,
      noBackslashEscapeGo s = catL (s.map fun c => if c = 39 ∨ c = 92 then [c, c] else [c])) ∧
    noBackslashEscapeGo [105, 116, 39, 115, 92, 112, 97, 116, 104]
      = [105, 116, 39, 39, 115, 92, 92, 112, 97, 116, 104] := by
  constructor
  · intro s
    rw [noBackslashEscapeGo_eq]
    induction s with
    | nil => rfl
    | cons c rest ih =>
      by_cases h : c = 39 ∨ c = 92
      · rcases h with h | h <;> subst h <;> simp [nbCharList, escByteN, catL, ih]
      · push_neg at h
        have hE : escByteN c = none := by simp [escByteN, h.1, h.2]
        simp [nbCharList, hE, catL, ih, h.1, h.2]
  · decide

/-- C4: the `escapeBackslash = true` escaper maps exactly the seven bytes
NUL, LF, CR, backslash, single quote, double quote and SUB to their
backslash-escaped two-byte forms and copies every other byte unchanged, in
byte order. -/
theorem claimC4BackslashEscapeMap (s : List Nat) :
    backslashEscapeGo s
      = catL (s.map fun c =>
          if c = 0 then [92, 48]
          else if c = 10 then [92, 110]
          else if c = 13 then [92, 114]
          else if c = 92 then [92, 92]
          else if c = 39 then [92, 39]
          else if c = 34 then [92, 34]
          else if c = 26 then [92, 90]
          else [c]) := by
  rw [backslashEscapeGo_eq]
  induction s with
  | nil => rfl
  | cons c rest ih =>
    show bsCharList (c :: rest) = _
    simp only [List.map_cons, catL, bsCharList, ih]
    congr 1
    unfold escByteB
    split_ifs <;> rfl

/-- C5: the queued bytes are NOT immutable after hand-off — the code enqueues
`bf.Bytes()` (a slice aliasing the accumulator's backing array) and then
resets and reuses the accumulator, so in the interleaving where the producer
writes the next row before the background writer dequeues, the bytes the
writer hands to the sink (`[2,2,1,1]`) differ from the bytes the chunk held
at enqueue time (`[1,1,1,1]`). -/
theorem claimC5AliasingObserved :
    (runActs aliasTrace).queuedAt = [[1, 1, 1, 1]] ∧
    (runActs aliasTrace).sink = [[2, 2, 1, 1]] ∧
    (runActs aliasTrace).sink ≠ (runActs aliasTrace).queuedAt := by decide

/-- C6: no row's rendered literal is ever split across two chunks — every
chunk `WriteInsert` enqueues is the concatenation of whole pieces (comment
lines, statement heads, whole row bodies, separators), and those pieces, in
chunk order, are exactly the canonical emission stream in which each row
body is a single piece. -/
theorem claimC6NoRowSplit (limit : Nat) (tbl : TableIR) :
    ∃ pss : List (List (List Nat)),
      writeInsertChunksL limit tbl = pss.map catL ∧ catL pss = piecesOf tbl := by
  by_cases hrow : hasRow tbl = true
  · refine ⟨writeInsertPiecesL limit tbl, ?_, ?_⟩
    all_goals {
      have hP : groupsLoop limit tbl.escapeBackSlash (insertHead tbl) tbl.groups
            (commentsBytes tbl.specialComments) []
          = (catL (groupsLoopP limit tbl.escapeBackSlash (insertHead tbl) tbl.groups
              (commentPieces tbl.specialComments) []).1,
            (groupsLoopP limit tbl.escapeBackSlash (insertHead tbl) tbl.groups
              (commentPieces tbl.specialComments) []).2.map catL) :=
        groupsLoopP_proj limit tbl.escapeBackSlash (insertHead tbl) tbl.groups
          (commentPieces tbl.specialComments) []
      have hq : writeInsertPiecesL limit tbl =
          (if 0 < (catL (groupsLoopP limit tbl.escapeBackSlash (insertHead tbl) tbl.groups
              (commentPieces tbl.specialComments) []).1).length
           then (groupsLoopP limit tbl.escapeBackSlash (insertHead tbl) tbl.groups
              (commentPieces tbl.specialComments) []).2
              ++ [(groupsLoopP limit tbl.escapeBackSlash (insertHead tbl) tbl.groups
              (commentPieces tbl.specialComments) []).1]
           else (groupsLoopP limit tbl.escapeBackSlash (insertHead tbl) tbl.groups
              (commentPieces tbl.specialComments) []).2) := by
        simp [writeInsertPiecesL, hrow]
      have hb : writeInsertChunksL limit tbl =
          (if 0 < (catL (groupsLoopP limit tbl.escapeBackSlash (insertHead tbl) tbl.groups
              (commentPieces tbl.specialComments) []).1).length
           then (groupsLoopP limit tbl.escapeBackSlash (insertHead tbl) tbl.groups
              (commentPieces tbl.specialComments) []).2.map catL
              ++ [catL (groupsLoopP limit tbl.escapeBackSlash (insertHead tbl) tbl.groups
              (commentPieces tbl.specialComments) []).1]
           else (groupsLoopP limit tbl.escapeBackSlash (insertHead tbl) tbl.groups
              (commentPieces tbl.specialComments) []).2.map catL) := by
        rw [writeInsertChunksL, if_pos hrow, hP]
      first
      | -- first goal: byte chunks are the piece chunks flattened
        (rw [hb, hq]
         split
         · simp
         · rfl)
      | -- second goal: the pieces, in order, are the canonical stream
        (have hflat := groupsLoopP_flatten limit tbl.escapeBackSlash (insertHead tbl) tbl.groups
          (commentPieces tbl.specialComments) []
         rw [hq]
         split
         · next hpos =>
           rw [catL_snoc, hflat]
           simp [piecesOf, hrow, catL]
         · next hneg =>
           have hq1 : (groupsLoopP limit tbl.escapeBackSlash (insertHead tbl) tbl.groups
               (commentPieces tbl.specialComments) []).1 = [] := by
             apply catLNilOf
             · apply groupsLoopP_ne limit tbl.escapeBackSlash (insertHead tbl)
                 (insertHead_ne tbl) tbl.groups (commentPieces tbl.specialComments) []
               intro x hx
               simp [commentPieces] at hx
               obtain ⟨c, _, hc⟩ := hx
               rw [← hc]
               exact appendSnocNe c 10
             · have : (catL (groupsLoopP limit tbl.escapeBackSlash (insertHead tbl) tbl.groups
                   (commentPieces tbl.specialComments) []).1).length = 0 := by omega
               exact List.eq_nil_of_length_eq_zero this
           rw [hq1, List.append_nil] at hflat
           rw [hflat]
           simp [piecesOf, hrow, catL])
    }
  · refine ⟨[], ?_, ?_⟩
    · simp [writeInsertChunksL, hrow]
    · simp [piecesOf, hrow, catL]

/-- C7: when the row stream is empty `WriteInsert` enqueues no chunk at all
(so the sink receives zero writes) and returns nil, for every chunk
threshold and every sink behavior. -/
theorem claimC7EmptyStream (limit : Nat) (outcome : Nat → Option Nat) (tbl : TableIR)
    (h : hasRow tbl = false) :
    writeInsertChunksL limit tbl = [] ∧ writeInsertRet limit outcome tbl = none := by
  constructor
  · simp [writeInsertChunksL, h]
  · simp [writeInsertRet, h]

/-- C7 witness: the empty stream with a special comment and an
always-failing sink. -/
theorem claimC7Witness :
    hasRow emptyTbl = false ∧ writeInsertChunksL lengthLimit emptyTbl = [] ∧
      writeInsertRet lengthLimit failingOutcome emptyTbl = none :=
  ⟨by decide, (claimC7EmptyStream lengthLimit failingOutcome emptyTbl (by decide)).1,
   (claimC7EmptyStream lengthLimit failingOutcome emptyTbl (by decide)).2⟩

/-- C8 counterexample: for the identifier made of a backtick then `t` (which
begins with a backtick but does not end with one), the claim predicts
wrapping, but `wrapBackTicks` returns it unchanged — and unchanged is not
the wrapped form. -/
theorem claimC8Counterexample :
    wrapBackTicks [96, 116] = [96, 116] ∧ ([96, 116] : List Nat) ≠ [96, 96, 116, 96] := by
  decide

/-- C8 amended: `wrapBackTicks` returns the identifier unchanged as soon as
it begins OR ends with a backtick, and wraps it in backticks only when it
neither begins nor ends with one. -/
theorem claimC8Amended (id : List Nat) :
    (id.head? = some 96 ∨ id.getLast? = some 96 → wrapBackTicks id = id) ∧
    (id.head? ≠ some 96 → id.getLast? ≠ some 96 →
      wrapBackTicks id = [96] ++ id ++ [96]) := by
  constructor
  · intro h
    unfold wrapBackTicks
    rw [if_neg]
    tauto
  · intro h1 h2
    unfold wrapBackTicks
    rw [if_pos ⟨h1, h2⟩]
    rfl

/-- C8 witness: a bare identifier gets wrapped; one starting with a backtick
(but not ending with one) is returned unchanged. -/
theorem claimC8Witness :
    wrapBackTicks [116] = [96, 116, 96] ∧ wrapBackTicks [96, 116] = [96, 116] :=
  ⟨(claimC8Amended [116]).2 (by decide) (by decide),
   (claimC8Amended [96, 116]).1 (Or.inl (by decide))⟩

theorem hexBody_len (b : List Nat) : (hexBody b).length = 2 * b.length := by
  induction b with
  | nil => rfl
  | cons v rest ih =>
    simp [hexBody, ih]
    omega

/-- C9: the binary codec renders exactly `x'`, then one lowercase hex pair
per byte in order, then a closing quote (so `DE AD BE EF` renders as
`x'deadbeef'` and the empty byte string renders as `x''`), and its size
estimate is the raw byte length, not the hex-expanded rendered length. -/
theorem claimC9BytesCodec :
    (∀ b : List Nat,
      renderCol true (.binV b) = [120, 39] ++ hexBody b ++ [39] ∧
      reportSize (.binV b) = b.length ∧
      (renderCol true (.binV b)).length = 3 + 2 * b.length) ∧
    renderCol true (.binV [222, 173, 190, 239])
      = [120, 39, 100, 101, 97, 100, 98, 101, 101, 102, 39] ∧
    renderCol true (.binV []) = [120, 39, 39] := by
  refine ⟨fun b => ⟨rfl, rfl, ?_⟩, by decide, by decide⟩
  simp [renderCol, hexBody_len]
  omega

/-- C10 counterexample: after the background writer has hit a write error
(error 7 buffered in the one-slot channel), the first `Error` call returns
it but a second call — also made after the error occurred — returns nil,
because the read consumes the channel; so not every call made after the
error returns the first error. -/
theorem claimC10Counterexample :
    (runPipe failingOutcome [[0]]).errOccurs = true ∧
    (wpError (runPipe failingOutcome [[0]])).1 = some 7 ∧
    (wpError (wpError (runPipe failingOutcome [[0]])).2).1 = none := by decide

/-- C10 amended: `Error` never blocks (it is a total, non-suspending read).
With no write error every call returns nil and every chunk is written.  With
a first failure at index `k`, the writer records exactly that one error,
attempts no write after the failing one, and the FIRST `Error` call returns
the error while the next call returns nil (the read consumes the one-slot
channel). -/
theorem claimC10Amended (outcome : Nat → Option Nat) (chunks : List (List Nat)) :
    ((∀ i, i < chunks.length → outcome i = none) →
      runPipe outcome chunks = ⟨none, false, chunks⟩ ∧
      (wpError (runPipe outcome chunks)).1 = none) ∧
    (∀ k e, k < chunks.length → (∀ i, i < k → outcome i = none) → outcome k = some e →
      runPipe outcome chunks = ⟨some e, true, chunks.take (k + 1)⟩ ∧
      (wpError (runPipe outcome chunks)).1 = some e ∧
      (wpError (wpError (runPipe outcome chunks)).2).1 = none) := by
  constructor
  · intro h
    have hrun := runPipeFrom_ok outcome chunks ⟨none, false, []⟩ rfl (by simpa using h)
    constructor
    · simpa [runPipe] using hrun
    · have : runPipe outcome chunks = ⟨none, false, chunks⟩ := by simpa [runPipe] using hrun
      simp [wpError, this]
  · intro k e hk hnone hsome
    have hrun := runPipeFrom_fail outcome chunks ⟨none, false, []⟩ k e rfl hk
      (by simpa using hnone) (by simpa using hsome)
    have hst : runPipe outcome chunks = ⟨some e, true, chunks.take (k + 1)⟩ := by
      simpa [runPipe] using hrun
    exact ⟨hst, by simp [wpError, hst], by simp [wpError, hst]⟩

/-- C10 witness: a sink whose second write fails with error 9 (spec scenario
6), on a three-chunk queue: only the first two writes are attempted, the
first `Error` call returns the error, the second returns nil. -/
theorem claimC10Witness :
    (1 < ([[1], [2], [3]] : List (List Nat)).length) ∧
    (runPipe sinkFailSecond [[1], [2], [3]]
        = ⟨some 9, true, ([[1], [2], [3]] : List (List Nat)).take 2⟩ ∧
      (wpError (runPipe sinkFailSecond [[1], [2], [3]])).1 = some 9 ∧
      (wpError (wpError (runPipe sinkFailSecond [[1], [2], [3]])).2).1 = none) :=
  ⟨by decide,
   (claimC10Amended sinkFailSecond [[1], [2], [3]]).2 1 9 (by decide) (by decide) (by decide)⟩
